import Mathlib

/-!
Verification of the signature detection and matching pipeline of
SC_Signature_Scanner (`src/scanner.py`, `src/pricing.py`).

The embedding below translates the pure computational core of the scanner:

* `match_signature` (scanner.py, `SignatureScanner.match_signature`,
  lines 1072-1194) over a `ScannerDB` record holding the lookup tables built
  by `_build_lookups`;
* the fixed-region clamping of `_scan_with_fixed_region`
  (lines 185-207) and the anchor-derived region arithmetic of
  `_scan_with_auto_detection` (lines 386-398);
* the Hough-circle selection loop of `_find_cross` (lines 566-598), with the
  ring-score function `_verify_ring_shape_gray` abstracted as an oracle
  parameter (it samples an image, which stays outside the embedding);
* the value/composition computation of `_get_rock_value_and_composition`
  (scanner.py, lines 1208-1282) together with the `MINERAL_DENSITY` table of
  pricing.py;
* the result assembly of `_scan_region` (lines 246-258).

Python floats are modelled as rationals (the scanner only adds, subtracts,
multiplies and divides small decimal constants), Python ints as `ℤ` with
`Int.ediv`/`Int.emod` (which agree with Python `//` and `%` for positive
divisors), and Python dicts as association lists.
-/

namespace Scanner

/-- A match record as produced by `match_signature`.  Numeric fields default
to `0`, modelling keys absent from the corresponding Python dict; constant
informational fields (`mining_method`, `possible_minerals`,
`single_mineral`) carry no data relevant to dedup, sorting or confidences
and are not represented. -/
structure Match where
  type : String
  name : String
  confidence : ℚ
  count : ℤ := 0
  panels : ℤ := 0
  base_signature : ℤ := 0
  signature : ℤ := 0
deriving DecidableEq, Repr

/-- Dedup key, `(m.get('type'), m.get('name'))` in the source. -/
def matchKey (m : Match) : String × String := (m.type, m.name)

/-- The lookup tables built once by `_build_lookups` from the signature
database: the exact `signature_lookup` dict, the `minable_signatures` dict
(base signature to name and category, the category being the string
`space_deposits` or `surface_deposits` in the source loop), and the two
ground-deposit base units (defaults 120 and 620). -/
structure ScannerDB where
  signature_lookup : List (ℤ × String)
  minable_signatures : List (ℤ × String × String)
  ground_deposit_small_base : ℤ
  ground_deposit_large_base : ℤ
deriving DecidableEq, Repr

/-- Structural facts guaranteed by `_build_lookups`: every minable entry is
tagged with one of the two category strings of the loop
`for category in ['space_deposits', 'surface_deposits']`, and distinct dict
entries carry distinct `(name, category)` payloads (names are keys of the
per-category JSON dicts). -/
def ScannerDB.WF (db : ScannerDB) : Prop :=
  (∀ e ∈ db.minable_signatures,
      e.2.2 = "space_deposits" ∨ e.2.2 = "surface_deposits") ∧
  db.minable_signatures.Pairwise (fun a b => a.2 ≠ b.2)

instance (db : ScannerDB) : Decidable db.WF := by
  unfold ScannerDB.WF
  infer_instance

/-- Confidence of a space/surface deposit match:
`0.9 if count == 1 else max(0.5, 0.85 - count * 0.01)`. -/
def minableConf (count : ℤ) : ℚ :=
  if count = 1 then 0.9 else max 0.5 (0.85 - (count : ℚ) * 0.01)

/-- Confidence of a small ground deposit match:
`0.9 if count <= 5 else max(0.6, 0.85 - count * 0.01)`. -/
def smallGroundConf (count : ℤ) : ℚ :=
  if count ≤ 5 then 0.9 else max 0.6 (0.85 - (count : ℚ) * 0.01)

/-- Confidence of a large ground deposit match:
`0.9 if count <= 3 else max(0.6, 0.85 - count * 0.02)`. -/
def largeGroundConf (count : ℤ) : ℚ :=
  if count ≤ 3 then 0.9 else max 0.6 (0.85 - (count : ℚ) * 0.02)

/-- The match dict built by the exact-lookup branch. -/
def knownMatch (name : String) (signature : ℤ) : Match :=
  { type := "known", name := name, confidence := 1.0, signature := signature }

/-- The match dict built by the salvage branch. -/
def salvageMatch (signature : ℤ) : Match :=
  { type := "salvage"
    name := "Salvage (" ++ toString (Int.ediv signature 2000) ++ " panels)"
    panels := Int.ediv signature 2000
    confidence := 1.0
    signature := signature }

/-- The match dict built by the small ground deposit branch. -/
def smallGroundMatch (base count signature : ℤ) : Match :=
  { type := "ground_deposit"
    name := "Small Ground Deposit (" ++ toString count ++ "x)"
    count := count
    base_signature := base
    confidence := smallGroundConf count
    signature := signature }

/-- The match dict built by the large ground deposit branch. -/
def largeGroundMatch (base count signature : ℤ) : Match :=
  { type := "ground_deposit"
    name := "Large Ground Deposit (" ++ toString count ++ "x)"
    count := count
    base_signature := base
    confidence := largeGroundConf count
    signature := signature }

/-- The match dict built for one minable table entry
`e = (base_sig, name, category)`. -/
def minableMatch (e : ℤ × String × String) (count signature : ℤ) : Match :=
  { type := e.2.2
    name := e.2.1
    count := count
    base_signature := e.1
    confidence := minableConf count
    signature := signature }

/-- Exact-lookup branch: `if signature in self.signature_lookup`. -/
def known_matches (db : ScannerDB) (signature : ℤ) : List Match :=
  match db.signature_lookup.lookup signature with
  | some name => [knownMatch name signature]
  | none => []

/-- Salvage branch: `if signature >= 2000 and signature % 2000 == 0`. -/
def salvage_matches (signature : ℤ) : List Match :=
  if 2000 ≤ signature ∧ Int.emod signature 2000 = 0 then
    [salvageMatch signature]
  else []

/-- Small ground deposit branch: base must be positive, signature an exact
multiple, count in `[1, 50]`. -/
def small_ground_matches (db : ScannerDB) (signature : ℤ) : List Match :=
  if 0 < db.ground_deposit_small_base ∧
      Int.emod signature db.ground_deposit_small_base = 0 then
    let count := Int.ediv signature db.ground_deposit_small_base
    if 1 ≤ count ∧ count ≤ 50 then
      [smallGroundMatch db.ground_deposit_small_base count signature]
    else []
  else []

/-- Large ground deposit branch: base must be positive, signature an exact
multiple, count in `[1, 30]`. -/
def large_ground_matches (db : ScannerDB) (signature : ℤ) : List Match :=
  if 0 < db.ground_deposit_large_base ∧
      Int.emod signature db.ground_deposit_large_base = 0 then
    let count := Int.ediv signature db.ground_deposit_large_base
    if 1 ≤ count ∧ count ≤ 30 then
      [largeGroundMatch db.ground_deposit_large_base count signature]
    else []
  else []

/-- One iteration of the minable loop: skip a zero base (`continue`),
require an exact multiple and a count in `[1, 100]`. -/
def minable_match_one (signature : ℤ) (e : ℤ × String × String) : List Match :=
  if e.1 = 0 then []
  else if Int.emod signature e.1 = 0 then
    let count := Int.ediv signature e.1
    if 1 ≤ count ∧ count ≤ 100 then [minableMatch e count signature] else []
  else []

/-- The whole minable loop over the table. -/
def minable_matches (db : ScannerDB) (signature : ℤ) : List Match :=
  db.minable_signatures.flatMap (minable_match_one signature)

/-- All candidate matches, in the order the source appends them. -/
def match_candidates (db : ScannerDB) (signature : ℤ) : List Match :=
  known_matches db signature ++ salvage_matches signature ++
    small_ground_matches db signature ++ large_ground_matches db signature ++
    minable_matches db signature

/-- `matches.sort(key=lambda x: x.get('confidence', 0), reverse=True)`:
a sorted-by-descending-confidence permutation of the candidates. -/
def sort_by_confidence (l : List Match) : List Match :=
  List.insertionSort (fun a b => b.confidence ≤ a.confidence) l

/-- The duplicate-removal scan: walk the sorted list keeping the first match
for each `(type, name)` key, carrying the `seen` set. -/
def dedup_matches : List Match → List (String × String) → List Match
  | [], _ => []
  | m :: rest, seen =>
    if matchKey m ∈ seen then dedup_matches rest seen
    else m :: dedup_matches rest (matchKey m :: seen)

/-- `match_signature`: collect candidates from every rule, sort by
descending confidence, drop duplicate `(type, name)` keys. -/
def match_signature (db : ScannerDB) (signature : ℤ) : List Match :=
  dedup_matches (sort_by_confidence (match_candidates db signature)) []

/-! ### Region location (`_scan_with_fixed_region` and
`_scan_with_auto_detection`) -/

/-- Fixed-region validation (scanner.py lines 191-207): clamp each
coordinate to the image bounds and reject a rectangle whose clamped width or
height is not positive. -/
def clamp_fixed_region (width height x1 y1 x2 y2 : ℤ) :
    Option (ℤ × ℤ × ℤ × ℤ) :=
  let x1c := max 0 (min x1 (width - 1))
  let y1c := max 0 (min y1 (height - 1))
  let x2c := max 0 (min x2 width)
  let y2c := max 0 (min y2 height)
  if x2c ≤ x1c ∨ y2c ≤ y1c then none
  else some (x1c, y1c, x2c, y2c)

/-- Anchor-derived signature region (scanner.py lines 386-398, the default
offsets path).  `unit` is the detected circle diameter, a non-negative
integer, so `int(unit * 5.0) = 5 * unit`, `int(unit * 3.5) = (7*unit) // 2`,
`int(unit * 1.5) = (3*unit) // 2` and `int(unit * 1.0) = unit` exactly.
Each coordinate is clamped on one side only and the rectangle is returned
unconditionally: this path has no post-clamp degeneracy check before the
crop. -/
def auto_signature_region (width height cx cy unit : ℤ) : ℤ × ℤ × ℤ × ℤ :=
  let sig_x := cx + 5 * unit
  let sig_y := cy - Int.ediv (7 * unit) 2
  let padding_x := Int.ediv (3 * unit) 2
  let padding_y := unit
  (max 0 (sig_x - padding_x), max 0 (sig_y - padding_y),
    min width (sig_x + padding_x), min height (sig_y + padding_y))

/-! ### Scan-result assembly (`_scan_region`, lines 246-258) -/

/-- The range filter applied to every OCR-parsed integer
(`if 500 <= value <= 200000`). -/
def extract_in_range (parsed : List ℤ) : List ℤ :=
  parsed.filter (fun v => decide (500 ≤ v ∧ v ≤ 200000))

/-- Python `max` over a non-empty list (the `[]` case is unreachable: the
source guards with `if signatures:`). -/
def pyListMax : List ℤ → ℤ
  | [] => 0
  | x :: xs => xs.foldl max x

/-- The dict returned by `_scan_region` when at least one signature was
extracted. -/
structure ScanResult where
  signature : ℤ
  all_signatures : List ℤ
  «matches» : List Match
deriving DecidableEq, Repr

/-- `_scan_region` result assembly: with `signatures` the in-range parsed
candidates, return `None` when empty, otherwise the maximum as `signature`,
`list(set(signatures))` as `all_signatures` (modelled by `List.dedup`; only
the underlying set is specified) and the matches for the maximum. -/
def scan_region_result (db : ScannerDB) (parsed : List ℤ) : Option ScanResult :=
  let signatures := extract_in_range parsed
  if signatures = [] then none
  else
    some { signature := pyListMax signatures
           all_signatures := signatures.dedup
           «matches» := match_signature db (pyListMax signatures) }

/-! ### Hough-circle selection (`_find_cross`, lines 566-598)

The ring score of a candidate is computed by `_verify_ring_shape_gray` from
the grayscale search image; here it enters as an oracle `ring_score`
function, and the selection loop, the part the claims are about, is
translated exactly: candidates with ring score `≤ 0.2` are never adopted,
and the adopted score is `ring_score - dist_penalty * 0.5` where
`dist_penalty` divides the distance from the search-region centre by
`max(normalized.shape)`, the larger of the region's height and width. -/

/-- A Hough candidate circle (centre and radius, in region coordinates). -/
structure HoughCircle where
  cx : ℚ
  cy : ℚ
  radius : ℚ
deriving DecidableEq, Repr

/-- Distance of a candidate centre from the centre of the search region of
height `regionH` and width `regionW` (`normalized.shape = (h, w)`, centre
`(shape[1]/2, shape[0]/2)`). -/
noncomputable def circle_dist (regionH regionW : ℚ) (c : HoughCircle) : ℝ :=
  Real.sqrt (((c.cx : ℝ) - (regionW : ℝ) / 2) ^ 2 +
    ((c.cy : ℝ) - (regionH : ℝ) / 2) ^ 2)

/-- The selection score of the source:
`score = ring_score - (dist / max(shape)) * 0.5`. -/
noncomputable def circle_score (ring_score : HoughCircle → ℝ)
    (regionH regionW : ℚ) (c : HoughCircle) : ℝ :=
  ring_score c - circle_dist regionH regionW c / max (regionH : ℝ) (regionW : ℝ) * 0.5

/-- The score formula as the specification states it, normalising the
distance by the diagonal of the search region instead. -/
noncomputable def spec_circle_score (ring_score : HoughCircle → ℝ)
    (regionH regionW : ℚ) (c : HoughCircle) : ℝ :=
  ring_score c -
    0.5 * (circle_dist regionH regionW c / Real.sqrt ((regionH : ℝ) ^ 2 + (regionW : ℝ) ^ 2))

open Classical in
/-- One iteration of the selection loop,
`if score > best_score and ring_score > 0.2: best = (circle, score)`.
The `none` case is the initial `best_score = -inf` state, in which the
score comparison always succeeds. -/
noncomputable def select_step (ring_score : HoughCircle → ℝ)
    (regionH regionW : ℚ) (c : HoughCircle) :
    Option (HoughCircle × ℝ) → Option (HoughCircle × ℝ)
  | none =>
    if 0.2 < ring_score c then some (c, circle_score ring_score regionH regionW c)
    else none
  | some b =>
    if b.2 < circle_score ring_score regionH regionW c ∧ 0.2 < ring_score c then
      some (c, circle_score ring_score regionH regionW c)
    else some b

/-- The selection loop over all Hough candidates, threading the running
best candidate and score. -/
noncomputable def select_circle_go (ring_score : HoughCircle → ℝ)
    (regionH regionW : ℚ) :
    List HoughCircle → Option (HoughCircle × ℝ) → Option (HoughCircle × ℝ)
  | [], best => best
  | c :: rest, best =>
    select_circle_go ring_score regionH regionW rest
      (select_step ring_score regionH regionW c best)

/-- The adopted circle, if any. -/
noncomputable def find_best_circle (ring_score : HoughCircle → ℝ)
    (regionH regionW : ℚ) (circles : List HoughCircle) : Option HoughCircle :=
  (select_circle_go ring_score regionH regionW circles none).map Prod.fst

/-! ### Value estimation (`_get_rock_value_and_composition`, scanner.py
lines 1208-1282, and `MINERAL_DENSITY` of pricing.py) -/

/-- The mineral density table of pricing.py (kg per SCU). -/
def MINERAL_DENSITY : List (String × ℚ) :=
  [("AGRICIUM", 239.71), ("ALUMINUM", 89.88), ("BERYL", 91.41),
   ("BEXALITE", 230.03), ("BORASE", 149.60), ("COPPER", 298.37),
   ("CORUNDUM", 133.85), ("GOLD", 643.57), ("HEPHAESTANITE", 106.54),
   ("ICE", 33.19), ("INERTMATERIAL", 33.21), ("IRON", 262.42),
   ("LARANITE", 383.09), ("QUANTANIUM", 681.26), ("QUARTZ", 88.30),
   ("RICCITE", 53.28), ("SILICON", 77.82), ("STILERON", 158.20),
   ("TARANITE", 339.67), ("TIN", 192.04), ("TITANIUM", 149.61),
   ("TUNGSTEN", 642.94), ("LINDINIUM", 200.00), ("TORITE", 200.00)]

/-- Python `str.upper` restricted to the ASCII names used here. -/
def pyUpper (s : String) : String := String.mk (s.data.map Char.toUpper)

/-- Python `str.capitalize`: first character upper-cased, the rest
lower-cased. -/
def pyCapitalize (s : String) : String :=
  match s.data with
  | [] => ""
  | c :: rest => String.mk (c.toUpper :: rest.map Char.toLower)

/-- `pricing.MINERAL_DENSITY.get(ore_name.upper(), 100.0)`. -/
def mineral_density (name : String) : ℚ :=
  (MINERAL_DENSITY.lookup (pyUpper name)).getD 100.0

/-- Python `int()` applied to a rational: truncation toward zero. -/
def pyInt (q : ℚ) : ℤ := if q < 0 then ⌈q⌉ else ⌊q⌋

/-- One `ores` dict entry: spawn probability and median yield fraction. -/
structure OreEntry where
  name : String
  prob : ℚ
  medPct : ℚ
deriving DecidableEq, Repr

/-- One entry of the composition list returned to the caller. -/
structure CompositionEntry where
  name : String
  prob : ℚ
  medPct : ℚ
  value : ℤ
  price : ℚ
deriving DecidableEq, Repr

/-- The unweighted assume-it-spawns value of one mineral:
`mineral_mass = mass * medPct`, `mineral_volume = mineral_mass / density`,
`ore_value = mineral_volume * price * yield_factor`, and `0` when the price
or density is not positive. -/
def ore_raw_value (mass yield_factor price density medPct : ℚ) : ℚ :=
  if 0 < price ∧ 0 < density then mass * medPct / density * price * yield_factor
  else 0

/-- The ore loop of `_get_rock_value_and_composition`: skip
`INERTMATERIAL`, require a positive probability and median yield, append a
composition entry holding the truncated unweighted value, and accumulate
the probability-weighted value into the total. -/
def rock_composition_go (mass yield_factor : ℚ) (price_of : String → ℚ) :
    List OreEntry → ℚ × List CompositionEntry
  | [] => (0, [])
  | ore :: rest =>
    let acc := rock_composition_go mass yield_factor price_of rest
    if ore.name = "INERTMATERIAL" then acc
    else if 0 < ore.prob ∧ 0 < ore.medPct then
      let price := price_of ore.name
      let ore_value := ore_raw_value mass yield_factor price
        (mineral_density ore.name) ore.medPct
      (acc.1 + ore_value * ore.prob,
        { name := pyCapitalize ore.name, prob := ore.prob, medPct := ore.medPct
          value := pyInt ore_value, price := price } :: acc.2)
    else acc

/-- `_get_rock_value_and_composition` (given the rock's median mass, the
refinery yield factor, the price table and the `ores` dict): the pair of the
probability-weighted total and the composition list sorted by price
descending. -/
def get_rock_value_and_composition (mass yield_factor : ℚ)
    (price_of : String → ℚ) (ores : List OreEntry) :
    ℚ × List CompositionEntry :=
  let r := rock_composition_go mass yield_factor price_of ores
  (r.1, List.insertionSort (fun a b : CompositionEntry => b.price ≤ a.price) r.2)

/-- An ore participates in the composition when it is not inert and has
positive probability and median yield. -/
def qualifyingOre (ore : OreEntry) : Prop :=
  ore.name ≠ "INERTMATERIAL" ∧ 0 < ore.prob ∧ 0 < ore.medPct

instance (ore : OreEntry) : Decidable (qualifyingOre ore) := by
  unfold qualifyingOre
  infer_instance

/-- The probability-weighted sum, over the qualifying ores, of the
unweighted per-mineral values: the number the reported total is claimed to
equal.  This is the specification-side formula, written independently of
the loop above. -/
def expected_total (mass yield_factor : ℚ) (price_of : String → ℚ) :
    List OreEntry → ℚ
  | [] => 0
  | o :: rest =>
    expected_total mass yield_factor price_of rest +
      (if qualifyingOre o then
        ore_raw_value mass yield_factor (price_of o.name)
          (mineral_density o.name) o.medPct * o.prob
      else 0)

/-! ### Concrete data used by witnesses -/

/-- A small concrete database of the shape `_build_lookups` produces. -/
def sampleDB : ScannerDB :=
  { signature_lookup := [(1900, "E-type asteroid")]
    minable_signatures :=
      [(1660, "ITYPE", "space_deposits"), (1730, "SHALE", "surface_deposits")]
    ground_deposit_small_base := 120
    ground_deposit_large_base := 620 }

/-! ## Generic facts about the sort and dedup passes -/

instance : IsTotal Match (fun a b => b.confidence ≤ a.confidence) :=
  ⟨fun a b => le_total b.confidence a.confidence⟩

instance : IsTrans Match (fun a b => b.confidence ≤ a.confidence) :=
  ⟨fun _ _ _ h1 h2 => le_trans h2 h1⟩

theorem perm_sort_by_confidence (l : List Match) :
    List.Perm (sort_by_confidence l) l :=
  List.perm_insertionSort _ l

theorem sorted_sort_by_confidence (l : List Match) :
    (sort_by_confidence l).Pairwise (fun a b => b.confidence ≤ a.confidence) :=
  List.sorted_insertionSort _ l

theorem dedup_matches_sublist :
    ∀ (l : List Match) (seen : List (String × String)),
      List.Sublist (dedup_matches l seen) l := by
  intro l
  induction l with
  | nil => intro seen; simp [dedup_matches]
  | cons m rest ih =>
    intro seen
    by_cases h : matchKey m ∈ seen
    · simp only [dedup_matches, if_pos h]
      exact (ih seen).cons m
    · simp only [dedup_matches, if_neg h]
      exact (ih (matchKey m :: seen)).cons₂ m

theorem mem_dedup_matches :
    ∀ (l : List Match) (seen : List (String × String)) (m : Match),
      m ∈ dedup_matches l seen → m ∈ l ∧ matchKey m ∉ seen := by
  intro l
  induction l with
  | nil => intro seen m hm; simp [dedup_matches] at hm
  | cons a rest ih =>
    intro seen m hm
    by_cases h : matchKey a ∈ seen
    · simp only [dedup_matches, if_pos h] at hm
      obtain ⟨h1, h2⟩ := ih seen m hm
      exact ⟨List.mem_cons_of_mem a h1, h2⟩
    · simp only [dedup_matches, if_neg h] at hm
      rcases List.mem_cons.mp hm with rfl | hm'
      · exact ⟨List.mem_cons_self _ _, h⟩
      · obtain ⟨h1, h2⟩ := ih (matchKey a :: seen) m hm'
        exact ⟨List.mem_cons_of_mem a h1, fun hc => h2 (List.mem_cons_of_mem _ hc)⟩

theorem dedup_matches_keys_pairwise :
    ∀ (l : List Match) (seen : List (String × String)),
      (dedup_matches l seen).Pairwise (fun a b => matchKey a ≠ matchKey b) := by
  intro l
  induction l with
  | nil => intro seen; simp [dedup_matches]
  | cons a rest ih =>
    intro seen
    by_cases h : matchKey a ∈ seen
    · simp only [dedup_matches, if_pos h]
      exact ih seen
    · simp only [dedup_matches, if_neg h]
      refine List.Pairwise.cons ?_ (ih (matchKey a :: seen))
      intro b hb
      have := (mem_dedup_matches rest (matchKey a :: seen) b hb).2
      intro hkey
      exact this (hkey ▸ List.mem_cons_self _ _)

theorem dedup_matches_exists_key :
    ∀ (l : List Match) (seen : List (String × String)) (c : Match),
      c ∈ l → matchKey c ∉ seen →
      ∃ m ∈ dedup_matches l seen, matchKey m = matchKey c := by
  intro l
  induction l with
  | nil => intro seen c hc; simp at hc
  | cons a rest ih =>
    intro seen c hc hseen
    by_cases h : matchKey a ∈ seen
    · simp only [dedup_matches, if_pos h]
      rcases List.mem_cons.mp hc with rfl | hc'
      · exact absurd h hseen
      · exact ih seen c hc' hseen
    · simp only [dedup_matches, if_neg h]
      by_cases hk : matchKey c = matchKey a
      · exact ⟨a, List.mem_cons_self _ _, hk.symm⟩
      · rcases List.mem_cons.mp hc with rfl | hc'
        · exact absurd rfl hk
        · obtain ⟨m, hm, hmk⟩ := ih (matchKey a :: seen) c hc'
            (by
              intro hmem
              rcases List.mem_cons.mp hmem with h1 | h2
              · exact hk h1
              · exact hseen h2)
          exact ⟨m, List.mem_cons_of_mem a hm, hmk⟩

theorem dedup_matches_max :
    ∀ (l : List Match) (seen : List (String × String)),
      l.Pairwise (fun a b => b.confidence ≤ a.confidence) →
      ∀ m ∈ dedup_matches l seen, ∀ c ∈ l,
        matchKey c = matchKey m → c.confidence ≤ m.confidence := by
  intro l
  induction l with
  | nil => intro seen _ m hm; simp [dedup_matches] at hm
  | cons a rest ih =>
    intro seen hsorted m hm c hc hkey
    obtain ⟨ha, hrest⟩ := List.pairwise_cons.mp hsorted
    by_cases h : matchKey a ∈ seen
    · simp only [dedup_matches, if_pos h] at hm
      rcases List.mem_cons.mp hc with rfl | hc'
      · exact absurd (hkey ▸ (mem_dedup_matches rest seen m hm).2) (by simp [h])
      · exact ih seen hrest m hm c hc' hkey
    · simp only [dedup_matches, if_neg h] at hm
      rcases List.mem_cons.mp hm with rfl | hm'
      · rcases List.mem_cons.mp hc with rfl | hc'
        · exact le_refl _
        · exact ha c hc'
      · rcases List.mem_cons.mp hc with rfl | hc'
        · exfalso
          have := (mem_dedup_matches rest (matchKey c :: seen) m hm').2
          exact this (hkey ▸ List.mem_cons_self _ _)
        · exact ih (matchKey a :: seen) hrest m hm' c hc' hkey

theorem mem_match_signature_sound (db : ScannerDB) (n : ℤ) :
    ∀ m ∈ match_signature db n, m ∈ match_candidates db n := by
  intro m hm
  have h1 : m ∈ sort_by_confidence (match_candidates db n) :=
    (dedup_matches_sublist _ []).subset hm
  exact (perm_sort_by_confidence (match_candidates db n)).mem_iff.mp h1

theorem mem_match_signature_of_max (db : ScannerDB) (n : ℤ) (m : Match)
    (hm : m ∈ match_candidates db n)
    (hmax : ∀ c ∈ match_candidates db n,
      matchKey c = matchKey m → c = m ∨ c.confidence < m.confidence) :
    m ∈ match_signature db n := by
  have hperm := perm_sort_by_confidence (match_candidates db n)
  have hm' : m ∈ sort_by_confidence (match_candidates db n) :=
    hperm.mem_iff.mpr hm
  obtain ⟨m', hm'', hkey⟩ :=
    dedup_matches_exists_key (sort_by_confidence (match_candidates db n)) [] m
      hm' (by simp)
  have hcand : m' ∈ match_candidates db n :=
    hperm.mem_iff.mp ((dedup_matches_sublist _ []).subset hm'')
  have hle : m.confidence ≤ m'.confidence :=
    dedup_matches_max _ [] (sorted_sort_by_confidence _) m' hm'' m hm' hkey.symm
  rcases hmax m' hcand hkey with rfl | hlt
  · exact hm''
  · exact absurd hle (not_le.mpr hlt)

/-! ## Inversion lemmas for the candidate builders -/

theorem mem_known_matches {db : ScannerDB} {n : ℤ} {m : Match}
    (h : m ∈ known_matches db n) :
    ∃ name, db.signature_lookup.lookup n = some name ∧ m = knownMatch name n := by
  cases hl : db.signature_lookup.lookup n with
  | none => simp [known_matches, hl] at h
  | some name =>
    simp only [known_matches, hl, List.mem_singleton] at h
    exact ⟨name, rfl, h⟩

theorem mem_salvage_matches {n : ℤ} {m : Match} (h : m ∈ salvage_matches n) :
    2000 ≤ n ∧ Int.emod n 2000 = 0 ∧ m = salvageMatch n := by
  by_cases h1 : 2000 ≤ n ∧ Int.emod n 2000 = 0
  · simp only [salvage_matches, if_pos h1, List.mem_singleton] at h
    exact ⟨h1.1, h1.2, h⟩
  · simp [salvage_matches, if_neg h1] at h

theorem mem_small_ground_matches {db : ScannerDB} {n : ℤ} {m : Match}
    (h : m ∈ small_ground_matches db n) :
    0 < db.ground_deposit_small_base ∧
    Int.emod n db.ground_deposit_small_base = 0 ∧
    1 ≤ Int.ediv n db.ground_deposit_small_base ∧
    Int.ediv n db.ground_deposit_small_base ≤ 50 ∧
    m = smallGroundMatch db.ground_deposit_small_base
      (Int.ediv n db.ground_deposit_small_base) n := by
  by_cases h1 : 0 < db.ground_deposit_small_base ∧
      Int.emod n db.ground_deposit_small_base = 0
  · simp only [small_ground_matches, if_pos h1] at h
    by_cases h2 : 1 ≤ Int.ediv n db.ground_deposit_small_base ∧
        Int.ediv n db.ground_deposit_small_base ≤ 50
    · simp only [if_pos h2, List.mem_singleton] at h
      exact ⟨h1.1, h1.2, h2.1, h2.2, h⟩
    · simp [if_neg h2] at h
  · simp [small_ground_matches, if_neg h1] at h

theorem mem_large_ground_matches {db : ScannerDB} {n : ℤ} {m : Match}
    (h : m ∈ large_ground_matches db n) :
    0 < db.ground_deposit_large_base ∧
    Int.emod n db.ground_deposit_large_base = 0 ∧
    1 ≤ Int.ediv n db.ground_deposit_large_base ∧
    Int.ediv n db.ground_deposit_large_base ≤ 30 ∧
    m = largeGroundMatch db.ground_deposit_large_base
      (Int.ediv n db.ground_deposit_large_base) n := by
  by_cases h1 : 0 < db.ground_deposit_large_base ∧
      Int.emod n db.ground_deposit_large_base = 0
  · simp only [large_ground_matches, if_pos h1] at h
    by_cases h2 : 1 ≤ Int.ediv n db.ground_deposit_large_base ∧
        Int.ediv n db.ground_deposit_large_base ≤ 30
    · simp only [if_pos h2, List.mem_singleton] at h
      exact ⟨h1.1, h1.2, h2.1, h2.2, h⟩
    · simp [if_neg h2] at h
  · simp [large_ground_matches, if_neg h1] at h

theorem mem_minable_match_one {n : ℤ} {e : ℤ × String × String} {m : Match}
    (h : m ∈ minable_match_one n e) :
    e.1 ≠ 0 ∧ Int.emod n e.1 = 0 ∧ 1 ≤ Int.ediv n e.1 ∧
    Int.ediv n e.1 ≤ 100 ∧ m = minableMatch e (Int.ediv n e.1) n := by
  by_cases h0 : e.1 = 0
  · simp [minable_match_one, if_pos h0] at h
  · simp only [minable_match_one, if_neg h0] at h
    by_cases h2 : Int.emod n e.1 = 0
    · simp only [if_pos h2] at h
      by_cases h3 : 1 ≤ Int.ediv n e.1 ∧ Int.ediv n e.1 ≤ 100
      · simp only [if_pos h3, List.mem_singleton] at h
        exact ⟨h0, h2, h3.1, h3.2, h⟩
      · simp [if_neg h3] at h
    · simp [if_neg h2] at h

theorem mem_minable_matches {db : ScannerDB} {n : ℤ} {m : Match}
    (h : m ∈ minable_matches db n) :
    ∃ e ∈ db.minable_signatures, m ∈ minable_match_one n e := by
  simpa [minable_matches] using h

theorem minable_match_one_eq {n : ℤ} {e : ℤ × String × String}
    (h0 : e.1 ≠ 0) (h2 : Int.emod n e.1 = 0) (h3 : 1 ≤ Int.ediv n e.1)
    (h4 : Int.ediv n e.1 ≤ 100) :
    minable_match_one n e = [minableMatch e (Int.ediv n e.1) n] := by
  simp [minable_match_one, h0, h2, h3, h4]

/-! ## Bounds and monotonicity of the confidence formulas -/

theorem minableConf_one : minableConf 1 = 0.9 := by
  simp [minableConf]

theorem minableConf_lt_one {c : ℤ} (hc : 1 ≤ c) : minableConf c < 1 := by
  unfold minableConf
  split_ifs with h
  · norm_num
  · have h2 : (2 : ℤ) ≤ c := by omega
    have h2q : (2 : ℚ) ≤ (c : ℚ) := by exact_mod_cast h2
    apply max_lt (by norm_num)
    nlinarith

theorem smallGroundConf_lt_one {c : ℤ} (hc : 1 ≤ c) : smallGroundConf c < 1 := by
  unfold smallGroundConf
  split_ifs with h
  · norm_num
  · have h2 : (6 : ℤ) ≤ c := by omega
    have h2q : (6 : ℚ) ≤ (c : ℚ) := by exact_mod_cast h2
    apply max_lt (by norm_num)
    nlinarith

theorem largeGroundConf_lt_one {c : ℤ} (hc : 1 ≤ c) : largeGroundConf c < 1 := by
  unfold largeGroundConf
  split_ifs with h
  · norm_num
  · have h2 : (4 : ℤ) ≤ c := by omega
    have h2q : (4 : ℚ) ≤ (c : ℚ) := by exact_mod_cast h2
    apply max_lt (by norm_num)
    nlinarith

theorem minableConf_nonneg (c : ℤ) : 0 ≤ minableConf c := by
  unfold minableConf
  split_ifs with h
  · norm_num
  · exact le_trans (by norm_num) (le_max_left (0.5 : ℚ) _)

theorem smallGroundConf_nonneg (c : ℤ) : 0 ≤ smallGroundConf c := by
  unfold smallGroundConf
  split_ifs with h
  · norm_num
  · exact le_trans (by norm_num) (le_max_left (0.6 : ℚ) _)

theorem largeGroundConf_nonneg (c : ℤ) : 0 ≤ largeGroundConf c := by
  unfold largeGroundConf
  split_ifs with h
  · norm_num
  · exact le_trans (by norm_num) (le_max_left (0.6 : ℚ) _)

theorem minableConf_anti {c₁ c₂ : ℤ} (h1 : 1 ≤ c₁) (h : c₁ ≤ c₂) :
    minableConf c₂ ≤ minableConf c₁ := by
  unfold minableConf
  split_ifs with e2 e1 e1
  · exact le_refl _
  · omega
  · have h2 : (2 : ℤ) ≤ c₂ := by omega
    have h2q : (2 : ℚ) ≤ (c₂ : ℚ) := by exact_mod_cast h2
    apply max_le (by norm_num)
    nlinarith
  · apply max_le_max (le_refl _)
    have hq : (c₁ : ℚ) ≤ (c₂ : ℚ) := by exact_mod_cast h
    nlinarith

theorem smallGroundConf_anti {c₁ c₂ : ℤ} (h1 : 1 ≤ c₁) (h : c₁ ≤ c₂) :
    smallGroundConf c₂ ≤ smallGroundConf c₁ := by
  unfold smallGroundConf
  split_ifs with e2 e1 e1
  · exact le_refl _
  · omega
  · have h2 : (6 : ℤ) ≤ c₂ := by omega
    have h2q : (6 : ℚ) ≤ (c₂ : ℚ) := by exact_mod_cast h2
    apply max_le (by norm_num)
    nlinarith
  · apply max_le_max (le_refl _)
    have hq : (c₁ : ℚ) ≤ (c₂ : ℚ) := by exact_mod_cast h
    nlinarith

theorem largeGroundConf_anti {c₁ c₂ : ℤ} (h1 : 1 ≤ c₁) (h : c₁ ≤ c₂) :
    largeGroundConf c₂ ≤ largeGroundConf c₁ := by
  unfold largeGroundConf
  split_ifs with e2 e1 e1
  · exact le_refl _
  · omega
  · have h2 : (4 : ℤ) ≤ c₂ := by omega
    have h2q : (4 : ℚ) ≤ (c₂ : ℚ) := by exact_mod_cast h2
    apply max_le (by norm_num)
    nlinarith
  · apply max_le_max (le_refl _)
    have hq : (c₁ : ℚ) ≤ (c₂ : ℚ) := by exact_mod_cast h
    nlinarith

/-! ## Key-uniqueness analyses for the individual rules -/

theorem mem_match_candidates_cases {db : ScannerDB} {n : ℤ} {c : Match}
    (hc : c ∈ match_candidates db n) :
    c ∈ known_matches db n ∨ c ∈ salvage_matches n ∨
    c ∈ small_ground_matches db n ∨ c ∈ large_ground_matches db n ∨
    c ∈ minable_matches db n := by
  simp only [match_candidates, List.mem_append] at hc
  tauto

theorem small_large_name_ne (a b : ℤ) :
    ("Small Ground Deposit (" ++ toString a ++ "x)") ≠
    ("Large Ground Deposit (" ++ toString b ++ "x)") := by
  intro h
  have hS : ("Small Ground Deposit (" ++ toString a ++ "x)").data.head? = some 'S' := by
    rw [String.data_append, String.data_append]
    rfl
  have hL : ("Large Ground Deposit (" ++ toString b ++ "x)").data.head? = some 'L' := by
    rw [String.data_append, String.data_append]
    rfl
  rw [h, hL] at hS
  exact absurd (Option.some.inj hS) (by decide)

theorem salvage_strict_max (db : ScannerDB) (n : ℤ) :
    ∀ c ∈ match_candidates db n, matchKey c = matchKey (salvageMatch n) →
      c = salvageMatch n ∨ c.confidence < (salvageMatch n).confidence := by
  intro c hc hkey
  rcases mem_match_candidates_cases hc with hk | hs | hsm | hlg | hmin
  · obtain ⟨name, _, rfl⟩ := mem_known_matches hk
    have hfst : "known" = "salvage" := congrArg Prod.fst hkey
    exact absurd hfst (by decide)
  · obtain ⟨_, _, rfl⟩ := mem_salvage_matches hs
    exact Or.inl rfl
  · obtain ⟨_, _, _, _, rfl⟩ := mem_small_ground_matches hsm
    have hfst : "ground_deposit" = "salvage" := congrArg Prod.fst hkey
    exact absurd hfst (by decide)
  · obtain ⟨_, _, _, _, rfl⟩ := mem_large_ground_matches hlg
    have hfst : "ground_deposit" = "salvage" := congrArg Prod.fst hkey
    exact absurd hfst (by decide)
  · obtain ⟨e, he, hone⟩ := mem_minable_matches hmin
    obtain ⟨h0, hmod, hge, _, rfl⟩ := mem_minable_match_one hone
    refine Or.inr ?_
    show minableConf (Int.ediv n e.1) < (1.0 : ℚ)
    have h1 := minableConf_lt_one hge
    have h2 : (1.0 : ℚ) = 1 := by norm_num
    rw [h2]
    exact h1

theorem known_strict_max (db : ScannerDB) (n : ℤ) (name : String)
    (hlk : db.signature_lookup.lookup n = some name) :
    ∀ c ∈ match_candidates db n, matchKey c = matchKey (knownMatch name n) →
      c = knownMatch name n ∨ c.confidence < (knownMatch name n).confidence := by
  intro c hc hkey
  rcases mem_match_candidates_cases hc with hk | hs | hsm | hlg | hmin
  · obtain ⟨name', hlk', rfl⟩ := mem_known_matches hk
    have : name' = name := Option.some.inj (hlk'.symm.trans hlk)
    exact Or.inl (by rw [this])
  · obtain ⟨_, _, rfl⟩ := mem_salvage_matches hs
    have hfst : "salvage" = "known" := congrArg Prod.fst hkey
    exact absurd hfst (by decide)
  · obtain ⟨_, _, _, _, rfl⟩ := mem_small_ground_matches hsm
    have hfst : "ground_deposit" = "known" := congrArg Prod.fst hkey
    exact absurd hfst (by decide)
  · obtain ⟨_, _, _, _, rfl⟩ := mem_large_ground_matches hlg
    have hfst : "ground_deposit" = "known" := congrArg Prod.fst hkey
    exact absurd hfst (by decide)
  · obtain ⟨e, he, hone⟩ := mem_minable_matches hmin
    obtain ⟨h0, hmod, hge, _, rfl⟩ := mem_minable_match_one hone
    refine Or.inr ?_
    show minableConf (Int.ediv n e.1) < (1.0 : ℚ)
    have h1 := minableConf_lt_one hge
    have h2 : (1.0 : ℚ) = 1 := by norm_num
    rw [h2]
    exact h1

theorem minable_strict_max (db : ScannerDB) (n : ℤ) (hwf : db.WF)
    (e : ℤ × String × String) (he : e ∈ db.minable_signatures) :
    ∀ c ∈ match_candidates db n,
      matchKey c = matchKey (minableMatch e (Int.ediv n e.1) n) →
      c = minableMatch e (Int.ediv n e.1) n ∨
      c.confidence < (minableMatch e (Int.ediv n e.1) n).confidence := by
  intro c hc hkey
  rcases mem_match_candidates_cases hc with hk | hs | hsm | hlg | hmin
  · obtain ⟨name, _, rfl⟩ := mem_known_matches hk
    have hfst : "known" = e.2.2 := congrArg Prod.fst hkey
    rcases hwf.1 e he with hcat | hcat <;> rw [hcat] at hfst <;>
      exact absurd hfst (by decide)
  · obtain ⟨_, _, rfl⟩ := mem_salvage_matches hs
    have hfst : "salvage" = e.2.2 := congrArg Prod.fst hkey
    rcases hwf.1 e he with hcat | hcat <;> rw [hcat] at hfst <;>
      exact absurd hfst (by decide)
  · obtain ⟨_, _, _, _, rfl⟩ := mem_small_ground_matches hsm
    have hfst : "ground_deposit" = e.2.2 := congrArg Prod.fst hkey
    rcases hwf.1 e he with hcat | hcat <;> rw [hcat] at hfst <;>
      exact absurd hfst (by decide)
  · obtain ⟨_, _, _, _, rfl⟩ := mem_large_ground_matches hlg
    have hfst : "ground_deposit" = e.2.2 := congrArg Prod.fst hkey
    rcases hwf.1 e he with hcat | hcat <;> rw [hcat] at hfst <;>
      exact absurd hfst (by decide)
  · obtain ⟨e', he', hone⟩ := mem_minable_matches hmin
    obtain ⟨h0, hmod, hge, _, rfl⟩ := mem_minable_match_one hone
    simp only [matchKey, minableMatch, Prod.mk.injEq] at hkey
    have he2 : e'.2 = e.2 := Prod.ext hkey.2 hkey.1
    by_cases hee : e' = e
    · subst hee
      exact Or.inl rfl
    · exact absurd he2
        (List.Pairwise.forall (fun x y hxy => Ne.symm hxy) hwf.2 he' he hee)

/-! ## Claim theorems C1, C2, C3 -/

/-- C1: for every integer `n` with `n ≥ 2000` and `n mod 2000 = 0`,
`match_signature(n)` contains a salvage match whose panel count is
`n / 2000` and whose confidence is `1.0`. -/
theorem c1_salvage_rule (db : ScannerDB) (n : ℤ)
    (h1 : 2000 ≤ n) (h2 : Int.emod n 2000 = 0) :
    ∃ m ∈ match_signature db n, m.type = "salvage" ∧
      m.panels = Int.ediv n 2000 ∧ m.confidence = 1 := by
  refine ⟨salvageMatch n, ?_, rfl, rfl, by norm_num [salvageMatch]⟩
  apply mem_match_signature_of_max
  · have hs : salvage_matches n = [salvageMatch n] := by
      rw [salvage_matches, if_pos ⟨h1, h2⟩]
    simp [match_candidates, hs]
  · exact salvage_strict_max db n

/-- Witness for C1: the hypotheses hold at `n = 6000` and the theorem
applies. -/
theorem c1_salvage_rule_witness :
    (2000 ≤ (6000 : ℤ)) ∧ Int.emod 6000 2000 = 0 ∧
    (∃ m ∈ match_signature sampleDB 6000, m.type = "salvage" ∧
      m.panels = Int.ediv 6000 2000 ∧ m.confidence = 1) :=
  ⟨by decide, by decide, c1_salvage_rule sampleDB 6000 (by decide) (by decide)⟩

/-- C2: for every key `n` of the exact-signature table, `match_signature(n)`
contains a match carrying the table's associated name with confidence
`1.0`. -/
theorem c2_exact_lookup (db : ScannerDB) (n : ℤ) (name : String)
    (h : db.signature_lookup.lookup n = some name) :
    ∃ m ∈ match_signature db n, m.type = "known" ∧ m.name = name ∧
      m.confidence = 1 := by
  refine ⟨knownMatch name n, ?_, rfl, rfl, by norm_num [knownMatch]⟩
  apply mem_match_signature_of_max
  · have hk : known_matches db n = [knownMatch name n] := by
      rw [known_matches, h]
    simp [match_candidates, hk]
  · exact known_strict_max db n name h

/-- Witness for C2: the hypothesis holds at `n = 1900` in the sample
database and the theorem applies. -/
theorem c2_exact_lookup_witness :
    sampleDB.signature_lookup.lookup 1900 = some "E-type asteroid" ∧
    (∃ m ∈ match_signature sampleDB 1900, m.type = "known" ∧
      m.name = "E-type asteroid" ∧ m.confidence = 1) :=
  ⟨by decide, c2_exact_lookup sampleDB 1900 "E-type asteroid" (by decide)⟩

/-- C3: for every base unit `b` of the minable table and every count
`1 ≤ c ≤ 100`, `match_signature(b*c)` contains a deposit match for that base
with count `c`; its confidence is `minableConf c`, which is `0.9` at
`c = 1` and non-increasing in `c`. -/
theorem c3_deposit_multiples (db : ScannerDB) (hwf : db.WF)
    (b : ℤ) (name cat : String)
    (he : (b, name, cat) ∈ db.minable_signatures) (hb : 0 < b)
    (c : ℤ) (hc1 : 1 ≤ c) (hc2 : c ≤ 100) :
    (∃ m ∈ match_signature db (b * c), m.type = cat ∧ m.name = name ∧
      m.base_signature = b ∧ m.count = c ∧ m.confidence = minableConf c) ∧
    minableConf 1 = 0.9 ∧
    (∀ c₁ c₂ : ℤ, 1 ≤ c₁ → c₁ ≤ c₂ → minableConf c₂ ≤ minableConf c₁) := by
  have hb0 : b ≠ 0 := ne_of_gt hb
  have hediv : Int.ediv (b * c) b = c := Int.mul_ediv_cancel_left c hb0
  have hmod : Int.emod (b * c) b = 0 := Int.mul_emod_right b c
  refine ⟨⟨minableMatch (b, name, cat) c (b * c), ?_, rfl, rfl, rfl, rfl, rfl⟩,
    minableConf_one, fun c₁ c₂ h1 h12 => minableConf_anti h1 h12⟩
  have hkey : minableMatch (b, name, cat) c (b * c) =
      minableMatch (b, name, cat) (Int.ediv (b * c) b) (b * c) := by
    rw [hediv]
  rw [hkey]
  apply mem_match_signature_of_max
  · have hone : minable_match_one (b * c) (b, name, cat) =
        [minableMatch (b, name, cat) (Int.ediv (b * c) b) (b * c)] := by
      apply minable_match_one_eq hb0 hmod
      · rw [hediv]; exact hc1
      · rw [hediv]; exact hc2
    have : minableMatch (b, name, cat) (Int.ediv (b * c) b) (b * c) ∈
        minable_matches db (b * c) := by
      unfold minable_matches
      exact List.mem_flatMap.mpr ⟨(b, name, cat), he, by rw [hone]; simp⟩
    simp only [match_candidates, List.mem_append]
    tauto
  · exact minable_strict_max db (b * c) hwf (b, name, cat) he

/-- Witness for C3: the hypotheses hold for base 1660 (`ITYPE`) at count 2
in the sample database and the theorem applies. -/
theorem c3_deposit_multiples_witness :
    sampleDB.WF ∧ ((1660 : ℤ), "ITYPE", "space_deposits") ∈
      sampleDB.minable_signatures ∧ (0 : ℤ) < 1660 ∧ (1 : ℤ) ≤ 2 ∧ (2 : ℤ) ≤ 100 ∧
    ((∃ m ∈ match_signature sampleDB (1660 * 2), m.type = "space_deposits" ∧
        m.name = "ITYPE" ∧ m.base_signature = 1660 ∧ m.count = 2 ∧
        m.confidence = minableConf 2) ∧
      minableConf 1 = 0.9 ∧
      (∀ c₁ c₂ : ℤ, 1 ≤ c₁ → c₁ ≤ c₂ → minableConf c₂ ≤ minableConf c₁)) :=
  ⟨by decide, by decide, by decide, by decide, by decide,
    c3_deposit_multiples sampleDB (by decide) 1660 "ITYPE" "space_deposits"
      (by decide) (by decide) 2 (by decide) (by decide)⟩

/-! ## Ground-deposit containment (used by claim C4) -/

theorem small_ground_strict_max (db : ScannerDB) (n : ℤ) (hwf : db.WF) :
    ∀ c ∈ match_candidates db n,
      matchKey c = matchKey (smallGroundMatch db.ground_deposit_small_base
        (Int.ediv n db.ground_deposit_small_base) n) →
      c = smallGroundMatch db.ground_deposit_small_base
        (Int.ediv n db.ground_deposit_small_base) n ∨
      c.confidence < (smallGroundMatch db.ground_deposit_small_base
        (Int.ediv n db.ground_deposit_small_base) n).confidence := by
  intro c hc hkey
  rcases mem_match_candidates_cases hc with hk | hs | hsm | hlg | hmin
  · obtain ⟨name, _, rfl⟩ := mem_known_matches hk
    have hfst : "known" = "ground_deposit" := congrArg Prod.fst hkey
    exact absurd hfst (by decide)
  · obtain ⟨_, _, rfl⟩ := mem_salvage_matches hs
    have hfst : "salvage" = "ground_deposit" := congrArg Prod.fst hkey
    exact absurd hfst (by decide)
  · obtain ⟨_, _, _, _, rfl⟩ := mem_small_ground_matches hsm
    exact Or.inl rfl
  · obtain ⟨_, _, _, _, rfl⟩ := mem_large_ground_matches hlg
    have hsnd := congrArg Prod.snd hkey
    exact absurd hsnd.symm (small_large_name_ne _ _)
  · obtain ⟨e, he, hone⟩ := mem_minable_matches hmin
    obtain ⟨_, _, _, _, rfl⟩ := mem_minable_match_one hone
    have hfst : e.2.2 = "ground_deposit" := congrArg Prod.fst hkey
    rcases hwf.1 e he with hcat | hcat <;> rw [hcat] at hfst <;>
      exact absurd hfst (by decide)

theorem large_ground_strict_max (db : ScannerDB) (n : ℤ) (hwf : db.WF) :
    ∀ c ∈ match_candidates db n,
      matchKey c = matchKey (largeGroundMatch db.ground_deposit_large_base
        (Int.ediv n db.ground_deposit_large_base) n) →
      c = largeGroundMatch db.ground_deposit_large_base
        (Int.ediv n db.ground_deposit_large_base) n ∨
      c.confidence < (largeGroundMatch db.ground_deposit_large_base
        (Int.ediv n db.ground_deposit_large_base) n).confidence := by
  intro c hc hkey
  rcases mem_match_candidates_cases hc with hk | hs | hsm | hlg | hmin
  · obtain ⟨name, _, rfl⟩ := mem_known_matches hk
    have hfst : "known" = "ground_deposit" := congrArg Prod.fst hkey
    exact absurd hfst (by decide)
  · obtain ⟨_, _, rfl⟩ := mem_salvage_matches hs
    have hfst : "salvage" = "ground_deposit" := congrArg Prod.fst hkey
    exact absurd hfst (by decide)
  · obtain ⟨_, _, _, _, rfl⟩ := mem_small_ground_matches hsm
    have hsnd := congrArg Prod.snd hkey
    exact absurd hsnd (small_large_name_ne _ _)
  · obtain ⟨_, _, _, _, rfl⟩ := mem_large_ground_matches hlg
    exact Or.inl rfl
  · obtain ⟨e, he, hone⟩ := mem_minable_matches hmin
    obtain ⟨_, _, _, _, rfl⟩ := mem_minable_match_one hone
    have hfst : e.2.2 = "ground_deposit" := congrArg Prod.fst hkey
    rcases hwf.1 e he with hcat | hcat <;> rw [hcat] at hfst <;>
      exact absurd hfst (by decide)

theorem small_ground_mem_match_signature (db : ScannerDB) (hwf : db.WF)
    (n : ℤ) (hb : 0 < db.ground_deposit_small_base)
    (hmod : Int.emod n db.ground_deposit_small_base = 0)
    (hge : 1 ≤ Int.ediv n db.ground_deposit_small_base)
    (hle : Int.ediv n db.ground_deposit_small_base ≤ 50) :
    smallGroundMatch db.ground_deposit_small_base
      (Int.ediv n db.ground_deposit_small_base) n ∈ match_signature db n := by
  apply mem_match_signature_of_max
  · have hs : small_ground_matches db n =
        [smallGroundMatch db.ground_deposit_small_base
          (Int.ediv n db.ground_deposit_small_base) n] := by
      rw [small_ground_matches, if_pos ⟨hb, hmod⟩]
      simp [hge, hle]
    simp only [match_candidates, List.mem_append, hs]
    simp
  · exact small_ground_strict_max db n hwf

theorem large_ground_mem_match_signature (db : ScannerDB) (hwf : db.WF)
    (n : ℤ) (hb : 0 < db.ground_deposit_large_base)
    (hmod : Int.emod n db.ground_deposit_large_base = 0)
    (hge : 1 ≤ Int.ediv n db.ground_deposit_large_base)
    (hle : Int.ediv n db.ground_deposit_large_base ≤ 30) :
    largeGroundMatch db.ground_deposit_large_base
      (Int.ediv n db.ground_deposit_large_base) n ∈ match_signature db n := by
  apply mem_match_signature_of_max
  · have hs : large_ground_matches db n =
        [largeGroundMatch db.ground_deposit_large_base
          (Int.ediv n db.ground_deposit_large_base) n] := by
      rw [large_ground_matches, if_pos ⟨hb, hmod⟩]
      simp [hge, hle]
    simp only [match_candidates, List.mem_append, hs]
    simp
  · exact large_ground_strict_max db n hwf

theorem minable_mem_match_signature (db : ScannerDB) (hwf : db.WF)
    {b : ℤ} {nm cat : String} (he : (b, nm, cat) ∈ db.minable_signatures)
    (hb : 0 < b) {c : ℤ} (hc1 : 1 ≤ c) (hc2 : c ≤ 100) :
    minableMatch (b, nm, cat) c (b * c) ∈ match_signature db (b * c) := by
  have hb0 : b ≠ 0 := ne_of_gt hb
  have hediv : Int.ediv (b * c) b = c := Int.mul_ediv_cancel_left c hb0
  have hmod : Int.emod (b * c) b = 0 := Int.mul_emod_right b c
  have hkey : minableMatch (b, nm, cat) c (b * c) =
      minableMatch (b, nm, cat) (Int.ediv (b * c) b) (b * c) := by rw [hediv]
  rw [hkey]
  apply mem_match_signature_of_max
  · have hone : minable_match_one (b * c) (b, nm, cat) =
        [minableMatch (b, nm, cat) (Int.ediv (b * c) b) (b * c)] := by
      apply minable_match_one_eq hb0 hmod
      · rw [hediv]; exact hc1
      · rw [hediv]; exact hc2
    have : minableMatch (b, nm, cat) (Int.ediv (b * c) b) (b * c) ∈
        minable_matches db (b * c) := by
      unfold minable_matches
      exact List.mem_flatMap.mpr ⟨(b, nm, cat), he, by rw [hone]; simp⟩
    simp only [match_candidates, List.mem_append]
    tauto
  · exact minable_strict_max db (b * c) hwf (b, nm, cat) he

/-! ## Claim theorems C4, C5, C6 -/

/-- C4 counterexample: with the default small ground base 120, the match at
signature 120 (count 1) and the match at signature 240 (count 2) carry the
same confidence `0.9`, so the confidence is not strictly smaller at the
larger repeat count. -/
theorem c4_counterexample :
    (match_signature sampleDB 120).map (fun m => (m.count, m.confidence)) =
      [(1, smallGroundConf 1)] ∧
    (match_signature sampleDB 240).map (fun m => (m.count, m.confidence)) =
      [(2, smallGroundConf 2)] ∧
    smallGroundConf 2 = smallGroundConf 1 ∧
    ¬ smallGroundConf 2 < smallGroundConf 1 := by
  refine ⟨rfl, rfl, rfl, ?_⟩
  have h : smallGroundConf 2 = smallGroundConf 1 := rfl
  rw [h]
  exact lt_irrefl _

/-- C4 amended: for each unit-multiple rule the confidence of the match
emitted at count `c₂` is at most (not necessarily strictly below) the
confidence emitted at count `c₁` whenever `1 ≤ c₁ ≤ c₂` and both counts lie
in the rule's accepted range. -/
theorem c4_confidence_nonincreasing (db : ScannerDB) (hwf : db.WF)
    (c₁ c₂ : ℤ) (h1 : 1 ≤ c₁) (h12 : c₁ ≤ c₂) :
    (0 < db.ground_deposit_small_base → c₂ ≤ 50 →
      ∃ m₁ ∈ match_signature db (db.ground_deposit_small_base * c₁),
      ∃ m₂ ∈ match_signature db (db.ground_deposit_small_base * c₂),
        m₁.type = "ground_deposit" ∧ m₁.count = c₁ ∧ m₂.count = c₂ ∧
        m₂.confidence ≤ m₁.confidence) ∧
    (0 < db.ground_deposit_large_base → c₂ ≤ 30 →
      ∃ m₁ ∈ match_signature db (db.ground_deposit_large_base * c₁),
      ∃ m₂ ∈ match_signature db (db.ground_deposit_large_base * c₂),
        m₁.type = "ground_deposit" ∧ m₁.count = c₁ ∧ m₂.count = c₂ ∧
        m₂.confidence ≤ m₁.confidence) ∧
    (∀ b nm cat, (b, nm, cat) ∈ db.minable_signatures → 0 < b → c₂ ≤ 100 →
      ∃ m₁ ∈ match_signature db (b * c₁), ∃ m₂ ∈ match_signature db (b * c₂),
        m₁.type = cat ∧ m₁.count = c₁ ∧ m₂.count = c₂ ∧
        m₂.confidence ≤ m₁.confidence) := by
  have h2 : 1 ≤ c₂ := le_trans h1 h12
  refine ⟨?_, ?_, ?_⟩
  · intro hb h50
    have hb0 : db.ground_deposit_small_base ≠ 0 := ne_of_gt hb
    have he1 : Int.ediv (db.ground_deposit_small_base * c₁)
        db.ground_deposit_small_base = c₁ := Int.mul_ediv_cancel_left c₁ hb0
    have he2 : Int.ediv (db.ground_deposit_small_base * c₂)
        db.ground_deposit_small_base = c₂ := Int.mul_ediv_cancel_left c₂ hb0
    refine ⟨smallGroundMatch db.ground_deposit_small_base c₁
        (db.ground_deposit_small_base * c₁), ?_,
      smallGroundMatch db.ground_deposit_small_base c₂
        (db.ground_deposit_small_base * c₂), ?_,
      rfl, rfl, rfl, smallGroundConf_anti h1 h12⟩
    · have := small_ground_mem_match_signature db hwf
        (db.ground_deposit_small_base * c₁) hb (Int.mul_emod_right _ _)
        (by rw [he1]; exact h1) (by rw [he1]; exact le_trans h12 h50)
      rwa [he1] at this
    · have := small_ground_mem_match_signature db hwf
        (db.ground_deposit_small_base * c₂) hb (Int.mul_emod_right _ _)
        (by rw [he2]; exact h2) (by rw [he2]; exact h50)
      rwa [he2] at this
  · intro hb h30
    have hb0 : db.ground_deposit_large_base ≠ 0 := ne_of_gt hb
    have he1 : Int.ediv (db.ground_deposit_large_base * c₁)
        db.ground_deposit_large_base = c₁ := Int.mul_ediv_cancel_left c₁ hb0
    have he2 : Int.ediv (db.ground_deposit_large_base * c₂)
        db.ground_deposit_large_base = c₂ := Int.mul_ediv_cancel_left c₂ hb0
    refine ⟨largeGroundMatch db.ground_deposit_large_base c₁
        (db.ground_deposit_large_base * c₁), ?_,
      largeGroundMatch db.ground_deposit_large_base c₂
        (db.ground_deposit_large_base * c₂), ?_,
      rfl, rfl, rfl, largeGroundConf_anti h1 h12⟩
    · have := large_ground_mem_match_signature db hwf
        (db.ground_deposit_large_base * c₁) hb (Int.mul_emod_right _ _)
        (by rw [he1]; exact h1) (by rw [he1]; exact le_trans h12 h30)
      rwa [he1] at this
    · have := large_ground_mem_match_signature db hwf
        (db.ground_deposit_large_base * c₂) hb (Int.mul_emod_right _ _)
        (by rw [he2]; exact h2) (by rw [he2]; exact h30)
      rwa [he2] at this
  · intro b nm cat he hb h100
    exact ⟨minableMatch (b, nm, cat) c₁ (b * c₁),
      minable_mem_match_signature db hwf he hb h1 (le_trans h12 h100),
      minableMatch (b, nm, cat) c₂ (b * c₂),
      minable_mem_match_signature db hwf he hb h2 h100,
      rfl, rfl, rfl, minableConf_anti h1 h12⟩

/-- Witness for C4: the amended theorem applies at the sample database with
counts 1 and 2. -/
theorem c4_confidence_nonincreasing_witness :
    sampleDB.WF ∧ (1 : ℤ) ≤ 1 ∧ (1 : ℤ) ≤ 2 ∧
    ((0 < sampleDB.ground_deposit_small_base → (2 : ℤ) ≤ 50 →
      ∃ m₁ ∈ match_signature sampleDB (sampleDB.ground_deposit_small_base * 1),
      ∃ m₂ ∈ match_signature sampleDB (sampleDB.ground_deposit_small_base * 2),
        m₁.type = "ground_deposit" ∧ m₁.count = 1 ∧ m₂.count = 2 ∧
        m₂.confidence ≤ m₁.confidence) ∧
    (0 < sampleDB.ground_deposit_large_base → (2 : ℤ) ≤ 30 →
      ∃ m₁ ∈ match_signature sampleDB (sampleDB.ground_deposit_large_base * 1),
      ∃ m₂ ∈ match_signature sampleDB (sampleDB.ground_deposit_large_base * 2),
        m₁.type = "ground_deposit" ∧ m₁.count = 1 ∧ m₂.count = 2 ∧
        m₂.confidence ≤ m₁.confidence) ∧
    (∀ b nm cat, (b, nm, cat) ∈ sampleDB.minable_signatures → 0 < b →
        (2 : ℤ) ≤ 100 →
      ∃ m₁ ∈ match_signature sampleDB (b * 1),
      ∃ m₂ ∈ match_signature sampleDB (b * 2),
        m₁.type = cat ∧ m₁.count = 1 ∧ m₂.count = 2 ∧
        m₂.confidence ≤ m₁.confidence)) :=
  ⟨by decide, by decide, by decide,
    c4_confidence_nonincreasing sampleDB (by decide) 1 2 (by decide) (by decide)⟩

/-- C5: the returned list has pairwise distinct `(type, name)` keys, is
sorted by descending confidence, every returned match is a candidate whose
confidence is maximal among the candidates sharing its key, and every
candidate key is represented in the output. -/
theorem c5_dedup_sort (db : ScannerDB) (n : ℤ) :
    (match_signature db n).Pairwise (fun a b => matchKey a ≠ matchKey b) ∧
    (match_signature db n).Pairwise (fun a b => b.confidence ≤ a.confidence) ∧
    (∀ m ∈ match_signature db n, m ∈ match_candidates db n ∧
      ∀ c ∈ match_candidates db n, matchKey c = matchKey m →
        c.confidence ≤ m.confidence) ∧
    (∀ c ∈ match_candidates db n, ∃ m ∈ match_signature db n,
      matchKey m = matchKey c) := by
  refine ⟨dedup_matches_keys_pairwise _ [], ?_, ?_, ?_⟩
  · exact List.Pairwise.sublist (dedup_matches_sublist _ [])
      (sorted_sort_by_confidence _)
  · intro m hm
    refine ⟨mem_match_signature_sound db n m hm, ?_⟩
    intro c hc hkey
    exact dedup_matches_max _ [] (sorted_sort_by_confidence _) m hm c
      ((perm_sort_by_confidence _).mem_iff.mpr hc) hkey
  · intro c hc
    exact dedup_matches_exists_key _ [] c
      ((perm_sort_by_confidence _).mem_iff.mpr hc) (by simp)

/-- Witness for C5: the theorem applied at the sample database and
signature 1900. -/
theorem c5_dedup_sort_witness :
    (match_signature sampleDB 1900).Pairwise
      (fun a b => matchKey a ≠ matchKey b) ∧
    (match_signature sampleDB 1900).Pairwise
      (fun a b => b.confidence ≤ a.confidence) ∧
    (∀ m ∈ match_signature sampleDB 1900, m ∈ match_candidates sampleDB 1900 ∧
      ∀ c ∈ match_candidates sampleDB 1900, matchKey c = matchKey m →
        c.confidence ≤ m.confidence) ∧
    (∀ c ∈ match_candidates sampleDB 1900, ∃ m ∈ match_signature sampleDB 1900,
      matchKey m = matchKey c) :=
  c5_dedup_sort sampleDB 1900

/-- C6: every match returned by `match_signature` has a confidence in the
closed interval `[0, 1]`. -/
theorem c6_confidence_bounds (db : ScannerDB) (n : ℤ) :
    ∀ m ∈ match_signature db n, 0 ≤ m.confidence ∧ m.confidence ≤ 1 := by
  intro m hm
  have hc := mem_match_signature_sound db n m hm
  rcases mem_match_candidates_cases hc with hk | hs | hsm | hlg | hmin
  · obtain ⟨name, _, rfl⟩ := mem_known_matches hk
    constructor <;> norm_num [knownMatch]
  · obtain ⟨_, _, rfl⟩ := mem_salvage_matches hs
    constructor <;> norm_num [salvageMatch]
  · obtain ⟨_, _, hge, _, rfl⟩ := mem_small_ground_matches hsm
    exact ⟨smallGroundConf_nonneg _, le_of_lt (smallGroundConf_lt_one hge)⟩
  · obtain ⟨_, _, hge, _, rfl⟩ := mem_large_ground_matches hlg
    exact ⟨largeGroundConf_nonneg _, le_of_lt (largeGroundConf_lt_one hge)⟩
  · obtain ⟨e, he, hone⟩ := mem_minable_matches hmin
    obtain ⟨_, _, hge, _, rfl⟩ := mem_minable_match_one hone
    exact ⟨minableConf_nonneg _, le_of_lt (minableConf_lt_one hge)⟩

/-- Witness for C6: the known match at 1900 is in the output of the sample
database and its confidence lies in `[0, 1]`. -/
theorem c6_confidence_bounds_witness :
    knownMatch "E-type asteroid" 1900 ∈ match_signature sampleDB 1900 ∧
    (0 ≤ (knownMatch "E-type asteroid" 1900).confidence ∧
      (knownMatch "E-type asteroid" 1900).confidence ≤ 1) := by
  have hm : knownMatch "E-type asteroid" 1900 ∈ match_signature sampleDB 1900 := by
    rw [show match_signature sampleDB 1900 =
      [knownMatch "E-type asteroid" 1900] from rfl]
    exact List.mem_singleton.mpr rfl
  exact ⟨hm, c6_confidence_bounds sampleDB 1900 _ hm⟩

/-! ## Claim C7: region clamping -/

/-- The fixed-region path does satisfy the claimed property: a returned
rectangle is contained in `[0, width) × [0, height)` (as a half-open pixel
box, `0 ≤ x1 < x2 ≤ width` and `0 ≤ y1 < y2 ≤ height`), and a degenerate
clamp is reported as `none`. -/
theorem clamp_fixed_region_spec (width height x1 y1 x2 y2 : ℤ) :
    (∀ a b c d, clamp_fixed_region width height x1 y1 x2 y2 = some (a, b, c, d) →
      0 ≤ a ∧ a < c ∧ c ≤ width ∧ 0 ≤ b ∧ b < d ∧ d ≤ height) ∧
    (max 0 (min x2 width) ≤ max 0 (min x1 (width - 1)) ∨
      max 0 (min y2 height) ≤ max 0 (min y1 (height - 1)) →
      clamp_fixed_region width height x1 y1 x2 y2 = none) := by
  constructor
  · intro a b c d hsome
    simp only [clamp_fixed_region] at hsome
    split_ifs at hsome with hcond
    push_neg at hcond
    rcases hcond with ⟨hx, hy⟩
    rcases hsome with ⟨ha, hb, hc, hd⟩
    refine ⟨le_max_left 0 _, hx, ?_, le_max_left 0 _, hy, ?_⟩
    · have hpos : 0 < max 0 (min x2 width) :=
        lt_of_le_of_lt (le_max_left 0 (min x1 (width - 1))) hx
      have heq : max 0 (min x2 width) = min x2 width := by
        rcases max_choice 0 (min x2 width) with h | h
        · rw [h] at hpos; exact absurd hpos (lt_irrefl 0)
        · exact h
      rw [show (0 : ℤ) ⊔ x2 ⊓ width = max 0 (min x2 width) from rfl, heq]
      exact min_le_right _ _
    · have hpos : 0 < max 0 (min y2 height) :=
        lt_of_le_of_lt (le_max_left 0 (min y1 (height - 1))) hy
      have heq : max 0 (min y2 height) = min y2 height := by
        rcases max_choice 0 (min y2 height) with h | h
        · rw [h] at hpos; exact absurd hpos (lt_irrefl 0)
        · exact h
      rw [show (0 : ℤ) ⊔ y2 ⊓ height = max 0 (min y2 height) from rfl, heq]
      exact min_le_right _ _
  · intro hdeg
    simp only [clamp_fixed_region]
    rw [if_pos hdeg]

/-- C7 exhibit: the anchor-derived path of `_scan_with_auto_detection`
clamps each coordinate on one side only and performs no degeneracy check.
For a 5000x100 frame with the anchor at `(1850, 74)` and diameter 100 (all
consistent with the detector's search band, which starts at `0.35 * width`
and `0.25 * height`, and its radius bound of 50 at this resolution), the
rectangle actually used is `(2200, 0, 2500, -176)`: its bottom edge
`-176` lies outside `[0, height)` and below its top edge `0`, yet the step
returns it to the crop instead of reporting a detection failure.  The
fixed-region validator of the same file rejects exactly this shape. -/
theorem c7_auto_region_unchecked :
    auto_signature_region 5000 100 1850 74 100 = (2200, 0, 2500, -176) ∧
    ((-176 : ℤ) < 0) ∧
    clamp_fixed_region 5000 100 2200 0 2500 (-176) = none := by
  refine ⟨by decide, by decide, by decide⟩

/-! ## Claim C10: scan-result assembly -/

theorem foldl_max_mem (a : ℤ) :
    ∀ (xs : List ℤ), xs.foldl max a = a ∨ xs.foldl max a ∈ xs := by
  intro xs
  induction xs generalizing a with
  | nil => exact Or.inl rfl
  | cons x xs ih =>
    simp only [List.foldl_cons]
    rcases ih (max a x) with h | h
    · rcases max_choice a x with hm | hm
      · rw [h, hm]; exact Or.inl rfl
      · rw [h, hm]; exact Or.inr (List.mem_cons_self _ _)
    · exact Or.inr (List.mem_cons_of_mem _ h)

theorem le_foldl_max (a : ℤ) :
    ∀ (xs : List ℤ), a ≤ xs.foldl max a ∧ ∀ x ∈ xs, x ≤ xs.foldl max a := by
  intro xs
  induction xs generalizing a with
  | nil => exact ⟨le_refl a, by simp⟩
  | cons x xs ih =>
    simp only [List.foldl_cons]
    obtain ⟨h1, h2⟩ := ih (max a x)
    refine ⟨le_trans (le_max_left a x) h1, ?_⟩
    intro y hy
    rcases List.mem_cons.mp hy with rfl | hy'
    · exact le_trans (le_max_right a y) h1
    · exact h2 y hy'

theorem pyListMax_spec (l : List ℤ) (h : l ≠ []) :
    pyListMax l ∈ l ∧ ∀ x ∈ l, x ≤ pyListMax l := by
  cases l with
  | nil => exact absurd rfl h
  | cons x xs =>
    constructor
    · rcases foldl_max_mem x xs with h1 | h1
      · rw [pyListMax, h1]; exact List.mem_cons_self _ _
      · exact List.mem_cons_of_mem _ h1
    · intro y hy
      rcases List.mem_cons.mp hy with rfl | hy'
      · exact (le_foldl_max y xs).1
      · exact (le_foldl_max x xs).2 y hy'

/-- C10: when at least one in-range candidate is extracted, the scan result
exists, its `signature` field is the numeric maximum of all the extracted
candidates, its `all_signatures` field is a duplicate-free list with exactly
the extracted candidates as members, and its matches are those of the
maximum. -/
theorem c10_signature_is_max (db : ScannerDB) (parsed : List ℤ)
    (h : extract_in_range parsed ≠ []) :
    ∃ r, scan_region_result db parsed = some r ∧
      r.signature ∈ extract_in_range parsed ∧
      (∀ v ∈ extract_in_range parsed, v ≤ r.signature) ∧
      r.all_signatures.Nodup ∧
      (∀ v, v ∈ r.all_signatures ↔ v ∈ extract_in_range parsed) ∧
      r.«matches» = match_signature db r.signature := by
  refine ⟨⟨pyListMax (extract_in_range parsed), (extract_in_range parsed).dedup,
    match_signature db (pyListMax (extract_in_range parsed))⟩, ?_, ?_, ?_, ?_, ?_, rfl⟩
  · unfold scan_region_result
    simp only [if_neg h]
  · exact (pyListMax_spec _ h).1
  · exact (pyListMax_spec _ h).2
  · exact List.nodup_dedup _
  · intro v
    exact List.mem_dedup

/-- Witness for C10: the hypothesis holds for the parsed values
`[1900, 300, 2000, 1900]` (the 300 is filtered out as out of range) and the
theorem applies. -/
theorem c10_signature_is_max_witness :
    extract_in_range [1900, 300, 2000, 1900] ≠ [] ∧
    (∃ r, scan_region_result sampleDB [1900, 300, 2000, 1900] = some r ∧
      r.signature ∈ extract_in_range [1900, 300, 2000, 1900] ∧
      (∀ v ∈ extract_in_range [1900, 300, 2000, 1900], v ≤ r.signature) ∧
      r.all_signatures.Nodup ∧
      (∀ v, v ∈ r.all_signatures ↔ v ∈ extract_in_range [1900, 300, 2000, 1900]) ∧
      r.«matches» = match_signature sampleDB r.signature) :=
  ⟨by decide, c10_signature_is_max sampleDB [1900, 300, 2000, 1900] (by decide)⟩

/-! ## Claim C8: ring-candidate selection -/

theorem select_step_mono (ring : HoughCircle → ℝ) (regionH regionW : ℚ)
    (c : HoughCircle) (b r : HoughCircle × ℝ)
    (h : select_step ring regionH regionW c (some b) = some r) : b.2 ≤ r.2 := by
  simp only [select_step] at h
  split_ifs at h with hc
  · rw [← Option.some.inj h]
    exact hc.1.le
  · rw [← Option.some.inj h]

theorem select_step_isSome (ring : HoughCircle → ℝ) (regionH regionW : ℚ)
    (c : HoughCircle) (b : HoughCircle × ℝ) :
    ∃ r, select_step ring regionH regionW c (some b) = some r := by
  simp only [select_step]
  split_ifs with hc
  · exact ⟨_, rfl⟩
  · exact ⟨b, rfl⟩

theorem select_step_sound (ring : HoughCircle → ℝ) (regionH regionW : ℚ)
    (c : HoughCircle) (best : Option (HoughCircle × ℝ)) (r : HoughCircle × ℝ)
    (h : select_step ring regionH regionW c best = some r) :
    (r = (c, circle_score ring regionH regionW c) ∧ 0.2 < ring c) ∨
      best = some r := by
  cases best with
  | none =>
    simp only [select_step] at h
    split_ifs at h with hc
    · exact Or.inl ⟨(Option.some.inj h).symm, hc⟩
  | some b =>
    simp only [select_step] at h
    split_ifs at h with hc
    · exact Or.inl ⟨(Option.some.inj h).symm, hc.2⟩
    · exact Or.inr h

theorem select_step_ge (ring : HoughCircle → ℝ) (regionH regionW : ℚ)
    (c : HoughCircle) (best : Option (HoughCircle × ℝ))
    (hring : 0.2 < ring c) :
    ∃ r, select_step ring regionH regionW c best = some r ∧
      circle_score ring regionH regionW c ≤ r.2 := by
  cases best with
  | none =>
    simp only [select_step]
    rw [if_pos hring]
    exact ⟨_, rfl, le_refl _⟩
  | some b =>
    simp only [select_step]
    split_ifs with hc
    · exact ⟨_, rfl, le_refl _⟩
    · refine ⟨b, rfl, ?_⟩
      have hA : ¬ (b.2 < circle_score ring regionH regionW c) :=
        fun hlt => hc ⟨hlt, hring⟩
      exact not_lt.mp hA

theorem select_circle_go_mono (ring : HoughCircle → ℝ) (regionH regionW : ℚ) :
    ∀ (cs : List HoughCircle) (b r : HoughCircle × ℝ),
      select_circle_go ring regionH regionW cs (some b) = some r → b.2 ≤ r.2 := by
  intro cs
  induction cs with
  | nil =>
    intro b r hr
    simp only [select_circle_go] at hr
    rw [Option.some.inj hr]
  | cons c rest ih =>
    intro b r hr
    simp only [select_circle_go] at hr
    obtain ⟨b', hb'⟩ := select_step_isSome ring regionH regionW c b
    rw [hb'] at hr
    exact le_trans (select_step_mono ring regionH regionW c b b' hb') (ih b' r hr)

theorem select_circle_go_sound (ring : HoughCircle → ℝ) (regionH regionW : ℚ) :
    ∀ (cs : List HoughCircle) (best : Option (HoughCircle × ℝ))
      (r : HoughCircle × ℝ),
      select_circle_go ring regionH regionW cs best = some r →
      (r.1 ∈ cs ∧ r.2 = circle_score ring regionH regionW r.1 ∧ 0.2 < ring r.1) ∨
        best = some r := by
  intro cs
  induction cs with
  | nil =>
    intro best r hr
    simp only [select_circle_go] at hr
    exact Or.inr hr
  | cons c rest ih =>
    intro best r hr
    simp only [select_circle_go] at hr
    rcases ih _ r hr with ⟨hm, hs, hrc⟩ | heq
    · exact Or.inl ⟨List.mem_cons_of_mem c hm, hs, hrc⟩
    · rcases select_step_sound ring regionH regionW c best r heq with ⟨hrc, hring⟩ | hbest
      · subst hrc
        exact Or.inl ⟨List.mem_cons_self _ _, rfl, hring⟩
      · exact Or.inr hbest

theorem select_circle_go_max (ring : HoughCircle → ℝ) (regionH regionW : ℚ) :
    ∀ (cs : List HoughCircle) (best : Option (HoughCircle × ℝ))
      (r : HoughCircle × ℝ),
      select_circle_go ring regionH regionW cs best = some r →
      ∀ c' ∈ cs, 0.2 < ring c' → circle_score ring regionH regionW c' ≤ r.2 := by
  intro cs
  induction cs with
  | nil => intro best r _ c' hc'; simp at hc'
  | cons c rest ih =>
    intro best r hr c' hc' hring
    simp only [select_circle_go] at hr
    rcases List.mem_cons.mp hc' with rfl | hc''
    · obtain ⟨b', hb', hge⟩ := select_step_ge ring regionH regionW c' best hring
      rw [hb'] at hr
      exact le_trans hge (select_circle_go_mono ring regionH regionW rest b' r hr)
    · exact ih _ r hr c' hc'' hring

/-- C8 amended: whenever `_find_cross`'s selection loop adopts a circle, the
adopted circle is one of the Hough candidates, its ring score exceeds
`0.2`, and it maximises `ring_score - (dist / max(height, width)) * 0.5`
(the distance from the search-region centre normalised by the larger side
of the region, not by its diagonal) among the candidates whose ring score
exceeds `0.2`. -/
theorem c8_ring_selection (ring : HoughCircle → ℝ) (regionH regionW : ℚ)
    (cs : List HoughCircle) (c : HoughCircle)
    (hc : find_best_circle ring regionH regionW cs = some c) :
    c ∈ cs ∧ 0.2 < ring c ∧
    ∀ c' ∈ cs, 0.2 < ring c' →
      circle_score ring regionH regionW c' ≤
        circle_score ring regionH regionW c := by
  unfold find_best_circle at hc
  cases hsel : select_circle_go ring regionH regionW cs none with
  | none => rw [hsel] at hc; simp at hc
  | some r =>
    rw [hsel] at hc
    simp only [Option.map_some'] at hc
    have hc1 : r.1 = c := Option.some.inj hc
    rcases select_circle_go_sound ring regionH regionW cs none r hsel with
      ⟨hm, hs, hrc⟩ | heq
    · subst hc1
      refine ⟨hm, hrc, ?_⟩
      intro c' hc' hring
      have := select_circle_go_max ring regionH regionW cs none r hsel c' hc' hring
      rwa [hs] at this
    · simp at heq

/-! Concrete instance for the C8 counterexample: a 300x400 search region
(maximum side 400, diagonal 500) with one perfectly centred candidate of
ring score `0.8` and one candidate 90 pixels to the right of centre with
ring score `0.9`. -/

def circA : HoughCircle := ⟨200, 150, 20⟩

def circB : HoughCircle := ⟨290, 150, 20⟩

noncomputable def ringC8 : HoughCircle → ℝ := fun c => if c = circA then 0.8 else 0.9

theorem circB_ne_circA : circB ≠ circA := by
  intro h
  have := congrArg HoughCircle.cx h
  norm_num [circA, circB] at this

theorem ringC8_A : ringC8 circA = 0.8 := if_pos rfl

theorem ringC8_B : ringC8 circB = 0.9 := if_neg circB_ne_circA

theorem circle_dist_A : circle_dist 300 400 circA = 0 := by
  have h : circle_dist 300 400 circA = Real.sqrt 0 := by
    simp only [circle_dist, circA]
    norm_num
  rw [h, Real.sqrt_zero]

theorem circle_dist_B : circle_dist 300 400 circB = 90 := by
  have h : circle_dist 300 400 circB = Real.sqrt 8100 := by
    simp only [circle_dist, circB]
    norm_num
  rw [h, show (8100 : ℝ) = 90 ^ 2 by norm_num,
    Real.sqrt_sq (by norm_num : (0 : ℝ) ≤ 90)]

theorem circle_score_A : circle_score ringC8 300 400 circA = 0.8 := by
  unfold circle_score
  rw [ringC8_A, circle_dist_A]
  norm_num

theorem circle_score_B : circle_score ringC8 300 400 circB = 0.7875 := by
  unfold circle_score
  rw [ringC8_B, circle_dist_B]
  have hmax : max (((300 : ℚ) : ℝ)) (((400 : ℚ) : ℝ)) = 400 := by
    norm_num
  rw [hmax]
  norm_num

theorem select_circle_concrete :
    select_circle_go ringC8 300 400 [circA, circB] none =
      some (circA, circle_score ringC8 300 400 circA) := by
  have h1 : select_step ringC8 300 400 circA none =
      some (circA, circle_score ringC8 300 400 circA) := by
    simp only [select_step]
    split_ifs with hc
    · rfl
    · exfalso
      apply hc
      rw [ringC8_A]
      norm_num
  have h2 : select_step ringC8 300 400 circB
      (some (circA, circle_score ringC8 300 400 circA)) =
      some (circA, circle_score ringC8 300 400 circA) := by
    simp only [select_step]
    split_ifs with hc
    · exfalso
      have hlt : circle_score ringC8 300 400 circA <
          circle_score ringC8 300 400 circB := hc.1
      rw [circle_score_A, circle_score_B] at hlt
      norm_num at hlt
    · rfl
  simp only [select_circle_go, h1, h2]

theorem find_best_circle_concrete :
    find_best_circle ringC8 300 400 [circA, circB] = some circA := by
  unfold find_best_circle
  rw [select_circle_concrete]
  rfl

theorem spec_score_A : spec_circle_score ringC8 300 400 circA = 0.8 := by
  unfold spec_circle_score
  rw [ringC8_A, circle_dist_A]
  norm_num

theorem spec_score_B : spec_circle_score ringC8 300 400 circB = 0.81 := by
  unfold spec_circle_score
  rw [ringC8_B, circle_dist_B]
  have hdiag : Real.sqrt ((((300 : ℚ) : ℝ)) ^ 2 + (((400 : ℚ) : ℝ)) ^ 2) =
      500 := by
    have h : (((300 : ℚ) : ℝ)) ^ 2 + (((400 : ℚ) : ℝ)) ^ 2 = 500 ^ 2 := by
      norm_num
    rw [h, Real.sqrt_sq (by norm_num : (0 : ℝ) ≤ 500)]
  rw [hdiag]
  norm_num

/-- C8 counterexample: on the 300x400 region the loop selects the centred
candidate `circA` (code score `0.8` against `0.7875`), yet the surviving
candidate `circB` has the strictly larger specification score
`ring - 0.5 * (dist / diagonal)` (`0.81` against `0.8`): the selected
circle does not maximise the diagonal-normalised score the claim states. -/
theorem c8_counterexample :
    find_best_circle ringC8 300 400 [circA, circB] = some circA ∧
    circB ∈ [circA, circB] ∧ 0.2 < ringC8 circB ∧
    spec_circle_score ringC8 300 400 circA <
      spec_circle_score ringC8 300 400 circB := by
  refine ⟨find_best_circle_concrete, by simp, ?_, ?_⟩
  · rw [ringC8_B]; norm_num
  · rw [spec_score_A, spec_score_B]; norm_num

/-- Witness for C8: the amended selection theorem applied to the concrete
candidate list. -/
theorem c8_ring_selection_witness :
    find_best_circle ringC8 300 400 [circA, circB] = some circA ∧
    (circA ∈ [circA, circB] ∧ 0.2 < ringC8 circA ∧
      ∀ c' ∈ [circA, circB], 0.2 < ringC8 c' →
        circle_score ringC8 300 400 c' ≤ circle_score ringC8 300 400 circA) :=
  ⟨find_best_circle_concrete,
    c8_ring_selection ringC8 300 400 [circA, circB] circA find_best_circle_concrete⟩

/-! ## Claim C9: value estimation -/

theorem rock_composition_go_total (mass yf : ℚ) (po : String → ℚ) :
    ∀ ores : List OreEntry,
      (rock_composition_go mass yf po ores).1 = expected_total mass yf po ores := by
  intro ores
  induction ores with
  | nil => rfl
  | cons o rest ih =>
    by_cases h1 : o.name = "INERTMATERIAL"
    · have hq : ¬ qualifyingOre o := fun hqq => hqq.1 h1
      simp only [rock_composition_go, expected_total, if_pos h1, if_neg hq, add_zero]
      exact ih
    · by_cases h2 : 0 < o.prob ∧ 0 < o.medPct
      · have hq : qualifyingOre o := ⟨h1, h2.1, h2.2⟩
        simp only [rock_composition_go, expected_total, if_neg h1, if_pos h2,
          if_pos hq]
        rw [ih]
      · have hq : ¬ qualifyingOre o := fun hqq => h2 ⟨hqq.2.1, hqq.2.2⟩
        simp only [rock_composition_go, expected_total, if_neg h1, if_neg h2,
          if_neg hq, add_zero]
        exact ih

theorem rock_composition_go_entries (mass yf : ℚ) (po : String → ℚ) :
    ∀ (ores : List OreEntry) (e : CompositionEntry),
      e ∈ (rock_composition_go mass yf po ores).2 →
      ∃ o ∈ ores, qualifyingOre o ∧ e.name = pyCapitalize o.name ∧
        e.prob = o.prob ∧ e.medPct = o.medPct ∧ e.price = po o.name ∧
        e.value = pyInt (ore_raw_value mass yf (po o.name)
          (mineral_density o.name) o.medPct) := by
  intro ores
  induction ores with
  | nil => intro e he; simp [rock_composition_go] at he
  | cons o rest ih =>
    intro e he
    by_cases h1 : o.name = "INERTMATERIAL"
    · simp only [rock_composition_go, if_pos h1] at he
      obtain ⟨o', ho', hrest⟩ := ih e he
      exact ⟨o', List.mem_cons_of_mem _ ho', hrest⟩
    · by_cases h2 : 0 < o.prob ∧ 0 < o.medPct
      · simp only [rock_composition_go, if_neg h1, if_pos h2] at he
        rcases List.mem_cons.mp he with rfl | he'
        · exact ⟨o, List.mem_cons_self _ _, ⟨h1, h2.1, h2.2⟩, rfl, rfl, rfl, rfl, rfl⟩
        · obtain ⟨o', ho', hrest⟩ := ih e he'
          exact ⟨o', List.mem_cons_of_mem _ ho', hrest⟩
      · simp only [rock_composition_go, if_neg h1, if_neg h2] at he
        obtain ⟨o', ho', hrest⟩ := ih e he
        exact ⟨o', List.mem_cons_of_mem _ ho', hrest⟩

theorem mineral_density_default : mineral_density "X" = 100 := by
  rw [show mineral_density "X" = (100.0 : ℚ) from rfl]
  norm_num

theorem ore_raw_value_scenario :
    ore_raw_value 1000 0.5 50 (mineral_density "X") 0.5 = 125 := by
  rw [mineral_density_default]
  unfold ore_raw_value
  rw [if_pos ⟨by norm_num, by norm_num⟩]
  norm_num

theorem rock_composition_scenario :
    get_rock_value_and_composition 1000 0.5 (fun _ => 50)
      [⟨"X", 1, 0.5⟩] = (125, [⟨"X", 1, 0.5, 125, 50⟩]) := by
  have hgo : rock_composition_go 1000 0.5 (fun _ => 50) [⟨"X", 1, 0.5⟩] =
      (125, [⟨"X", 1, 0.5, 125, 50⟩]) := by
    simp only [rock_composition_go]
    rw [if_neg (by decide : ¬ ("X" = "INERTMATERIAL"))]
    rw [if_pos ⟨(by norm_num : (0 : ℚ) < 1), (by norm_num : (0 : ℚ) < 0.5)⟩]
    have hv : pyInt (ore_raw_value 1000 0.5 50 (mineral_density "X") 0.5) = 125 := by
      rw [ore_raw_value_scenario]
      unfold pyInt
      rw [if_neg (by norm_num)]
      exact Int.floor_intCast 125
    rw [Prod.mk.injEq]
    constructor
    · rw [ore_raw_value_scenario]
      norm_num
    · rw [show pyCapitalize "X" = "X" from rfl, hv]
  unfold get_rock_value_and_composition
  rw [hgo]
  rfl

/-- C9 amended: every composition entry reported for a qualifying mineral
carries the integer truncation of the unweighted assume-it-spawns value
`mass * medPct / density * price * refinery_yield`, the reported total is
the probability-weighted sum of the untruncated unweighted values, and at
the documented scenario (mass 1000, yield fraction 0.5, density 100,
price 50, refinery yield 0.5) the reported per-mineral value is exactly
125. -/
theorem c9_value_and_composition :
    (∀ (mass yield_factor : ℚ) (price_of : String → ℚ) (ores : List OreEntry),
      (get_rock_value_and_composition mass yield_factor price_of ores).1 =
        expected_total mass yield_factor price_of ores ∧
      ∀ e ∈ (get_rock_value_and_composition mass yield_factor price_of ores).2,
        ∃ o ∈ ores, qualifyingOre o ∧ e.name = pyCapitalize o.name ∧
          e.prob = o.prob ∧ e.medPct = o.medPct ∧ e.price = price_of o.name ∧
          e.value = pyInt (ore_raw_value mass yield_factor (price_of o.name)
            (mineral_density o.name) o.medPct)) ∧
    get_rock_value_and_composition 1000 0.5 (fun _ => 50)
      [⟨"X", 1, 0.5⟩] = (125, [⟨"X", 1, 0.5, 125, 50⟩]) := by
  refine ⟨?_, rock_composition_scenario⟩
  intro mass yield_factor price_of ores
  constructor
  · exact rock_composition_go_total mass yield_factor price_of ores
  · intro e he
    have he' : e ∈ (rock_composition_go mass yield_factor price_of ores).2 := by
      have hperm := List.perm_insertionSort
        (fun a b : CompositionEntry => b.price ≤ a.price)
        (rock_composition_go mass yield_factor price_of ores).2
      simp only [get_rock_value_and_composition] at he
      exact hperm.mem_iff.mp he
    exact rock_composition_go_entries mass yield_factor price_of ores e he'

/-- C9 counterexample: with price 51 instead of 50 the unweighted value is
`1000 * 0.5 / 100 * 51 * 0.5 = 127.5`, but the composition entry reports
the truncated integer 127, so the reported per-mineral value does not equal
the formula value. -/
theorem c9_counterexample :
    (get_rock_value_and_composition 1000 0.5 (fun _ => 51)
      [⟨"X", 1, 0.5⟩]).2 = [⟨"X", 1, 0.5, 127, 51⟩] ∧
    ((127 : ℚ) ≠ 1000 * 0.5 / (100 : ℚ) * 51 * 0.5) := by
  constructor
  · have hval : ore_raw_value 1000 0.5 51 (mineral_density "X") 0.5 = 127.5 := by
      rw [mineral_density_default]
      unfold ore_raw_value
      rw [if_pos ⟨by norm_num, by norm_num⟩]
      norm_num
    have hv : pyInt (ore_raw_value 1000 0.5 51 (mineral_density "X") 0.5) = 127 := by
      rw [hval]
      unfold pyInt
      rw [if_neg (by norm_num)]
      rw [Int.floor_eq_iff]
      constructor <;> norm_num
    have hgo : rock_composition_go 1000 0.5 (fun _ => 51) [⟨"X", 1, 0.5⟩] =
        (127.5, [⟨"X", 1, 0.5, 127, 51⟩]) := by
      simp only [rock_composition_go]
      rw [if_neg (by decide : ¬ ("X" = "INERTMATERIAL"))]
      rw [if_pos ⟨(by norm_num : (0 : ℚ) < 1), (by norm_num : (0 : ℚ) < 0.5)⟩]
      rw [Prod.mk.injEq]
      constructor
      · rw [hval]; norm_num
      · rw [show pyCapitalize "X" = "X" from rfl, hv]
    unfold get_rock_value_and_composition
    rw [hgo]
    rfl
  · norm_num

/-- Witness for C9: the universal half of the amended theorem applied at
the scenario inputs. -/
theorem c9_value_and_composition_witness :
    (get_rock_value_and_composition 1000 0.5 (fun _ => 50)
      [⟨"X", 1, 0.5⟩]).1 = expected_total 1000 0.5 (fun _ => 50)
        [⟨"X", 1, 0.5⟩] ∧
    ∀ e ∈ (get_rock_value_and_composition 1000 0.5 (fun _ => 50)
        [⟨"X", 1, 0.5⟩]).2,
      ∃ o ∈ [(⟨"X", 1, 0.5⟩ : OreEntry)], qualifyingOre o ∧
        e.name = pyCapitalize o.name ∧ e.prob = o.prob ∧ e.medPct = o.medPct ∧
        e.price = 50 ∧
        e.value = pyInt (ore_raw_value 1000 0.5 50
          (mineral_density o.name) o.medPct) :=
  c9_value_and_composition.1 1000 0.5 (fun _ => 50) [⟨"X", 1, 0.5⟩]

end Scanner
